import Mathlib

/-!
Verification of the slide-keyframe selection engine of youtube2ppt.

The definitions below are a shallow embedding of the keyframe-selection
code in src/ppt_pipeline/scene_extract.py (function run_extract_scenedetect
and helper _is_frame_static) and src/ppt_pipeline/evp_utils.py (function
extract_frames_at_times).  Timestamps are modelled as rationals; a decoded
video frame is an abstract type F, and the OpenCV operations on frames
(Laplacian-variance sharpness, mean absolute grayscale difference, frame
capture at a timestamp, image read from a file) are abstract parameters
bundled in the Metric structure.  File paths for extracted frames are
modelled by the 0-based extraction index that names the file
(frame_{i+1:03d}.png).
-/

/-- Abstract frame-sampling and frame-metric capabilities used by
scene_extract.py.  sample t models cap.set(POS_MSEC, t*1000); cap.read()
(none = unreadable frame); sharp models the Laplacian variance of the
grayscale frame; diff models np.mean(cv2.absdiff(gray a, gray b)). -/
structure Metric (F : Type) where
  sample : ℚ → Option F
  sharp : F → ℚ
  diff : F → F → ℚ

/-- scene_extract.py lines 14-20, _is_frame_static: a missing (or empty)
frame is static; otherwise the frame is static iff its Laplacian variance
is below the threshold. -/
def is_frame_static {F : Type} (sharp : F → ℚ) (frame : Option F) (static_threshold : ℚ) : Bool :=
  match frame with
  | none => true
  | some f => sharp f < static_threshold

/-- scene_extract.py lines 94-97: a candidate time s is kept only when it
is not before start_sec and not after end_sec (each check skipped when the
bound is absent). -/
def windowOk (startSec endSec : Option ℚ) (s : ℚ) : Bool :=
  (match startSec with
   | none => true
   | some w => decide (w ≤ s)) &&
  (match endSec with
   | none => true
   | some w => decide (s ≤ w))

/-- scene_extract.py lines 105-111: drop a frame as a duplicate when a
previous kept frame exists and the mean absolute difference to it is below
the duplicate threshold. -/
def dupWithPrev {F : Type} (M : Metric F) (dupTh : ℚ) (prev : Option F) (f : F) : Bool :=
  match prev with
  | none => false
  | some p => decide (M.diff f p < dupTh)

/-- scene_extract.py lines 92-113: the per-scene loop run when static or
duplicate filtering is enabled.  For each scene start time s (in list
order): skip it when outside the window; if the frame read fails, keep s
without updating prev_frame; if static filtering is on and the frame is
static, drop s; if duplicate filtering is on and the frame is a duplicate
of the last kept frame, drop s; otherwise keep s and make its frame the
new prev_frame. -/
def scanScenes {F : Type} (M : Metric F) (startSec endSec : Option ℚ)
    (stTh dupTh : ℚ) : List ℚ → Option F → List ℚ
  | [], _ => []
  | s :: rest, prev =>
    if windowOk startSec endSec s = false then
      scanScenes M startSec endSec stTh dupTh rest prev
    else
      match M.sample s with
      | none => s :: scanScenes M startSec endSec stTh dupTh rest prev
      | some frame =>
        if 0 < stTh ∧ is_frame_static M.sharp (some frame) stTh then
          scanScenes M startSec endSec stTh dupTh rest prev
        else if 0 < dupTh ∧ dupWithPrev M dupTh prev frame then
          scanScenes M startSec endSec stTh dupTh rest prev
        else s :: scanScenes M startSec endSec stTh dupTh rest (some frame)

/-- scene_extract.py lines 87-123: build times_sec from the scene start
times.  When static or duplicate filtering is enabled the sampling loop
scanScenes runs (with prev_frame initially absent); otherwise only the
window filter applies. -/
def collectTimes {F : Type} (M : Metric F) (startSec endSec : Option ℚ)
    (stTh dupTh : ℚ) (sceneStarts : List ℚ) : List ℚ :=
  if 0 < stTh ∨ 0 < dupTh then
    scanScenes M startSec endSec stTh dupTh sceneStarts none
  else
    sceneStarts.filter (windowOk startSec endSec)

/-- scene_extract.py lines 129-133, loop body after the first kept
candidate: skip ts when it equals the last kept time; keep it when its
distance to the last kept time is at least min_gap. -/
def gapLoop (g last : ℚ) : List ℚ → List ℚ
  | [] => []
  | ts :: rest =>
    if ts = last then gapLoop g last rest
    else if g ≤ ts - last then ts :: gapLoop g ts rest
    else gapLoop g last rest

/-- scene_extract.py lines 127-134: the min-gap coalescing pass over the
sorted times (the first candidate is always kept because the kept list
starts empty). -/
def gapCoalesce (g : ℚ) : List ℚ → List ℚ
  | [] => []
  | ts :: rest => ts :: gapLoop g ts rest

/-- scene_extract.py lines 86-134: the full candidate filtering stage:
window/static/duplicate filtering over the scene start times, then
times_sec.sort(), then min-gap coalescing with min_gap = max(0, g). -/
def temporalFilter {F : Type} (M : Metric F) (startSec endSec : Option ℚ)
    (stTh dupTh g : ℚ) (sceneStarts : List ℚ) : List ℚ :=
  gapCoalesce (max 0 g)
    (List.insertionSort (· ≤ ·) (collectTimes M startSec endSec stTh dupTh sceneStarts))

/-- scene_extract.py lines 136-139: when filtering leaves no candidate,
fall back to the single candidate start_sec (or 0 with no window); the
Boolean records whether the distinct fallback log message fired. -/
def temporalFilterWithFallback {F : Type} (M : Metric F) (startSec endSec : Option ℚ)
    (stTh dupTh g : ℚ) (sceneStarts : List ℚ) : List ℚ × Bool :=
  let ts := temporalFilter M startSec endSec stTh dupTh g sceneStarts
  if ts = [] then ([startSec.getD 0], true) else (ts, false)

/-- scene_extract.py lines 92-93 and 117-118: the representative time of a
detected scene interval is its start (s = start_tc.get_seconds()). -/
def intervalRepresentative (iv : ℚ × ℚ) : ℚ := iv.1

/-- The boundary-normalization part of scene_extract.py with filtering
disabled (lines 116-125): map each detected interval to its start time,
discard representatives outside the window, and sort ascending. -/
def normalizeCandidates (startSec endSec : Option ℚ) (scenes : List (ℚ × ℚ)) : List ℚ :=
  List.insertionSort (· ≤ ·)
    ((scenes.map intervalRepresentative).filter (windowOk startSec endSec))

/-- scene_extract.py lines 151-154: the fill loop for one long segment,
t = a + fill; while t < b: emit t; t += fill.  The loop only runs in a
context where fill is positive (line 144), which the guard records and
which makes the loop terminate. -/
def fillLoop (fill b t : ℚ) : List ℚ :=
  if 0 < fill ∧ t < b then t :: fillLoop fill b (t + fill) else []
termination_by (⌈(b - t) / fill⌉).toNat
decreasing_by
  rename_i h
  have hf : 0 < fill := h.1
  have hceil : (0 : ℤ) < ⌈(b - t) / fill⌉ :=
    Int.ceil_pos.mpr (div_pos (sub_pos.mpr h.2) hf)
  have hsub : (b - (t + fill)) / fill = (b - t) / fill - 1 := by
    field_simp
    ring
  have hstep : ⌈(b - (t + fill)) / fill⌉ = ⌈(b - t) / fill⌉ - 1 := by
    rw [hsub]
    exact_mod_cast Int.ceil_sub_one ((b - t) / fill)
  omega

/-- scene_extract.py lines 147-154: walk the adjacent pairs (a, b) of the
candidate list and collect fill points for every pair farther apart than
max_gap. -/
def fillPass (maxGap fill : ℚ) : List ℚ → List ℚ
  | a :: b :: rest =>
    (if maxGap < b - a then fillLoop fill b (a + fill) else []) ++ fillPass maxGap fill (b :: rest)
  | _ => []

/-- scene_extract.py lines 142-157: the gap-filling stage.  Active only
when max_gap and fill are positive and at least two candidates exist; when
fill points were produced, the merged list is re-sorted. -/
def fillGaps (maxGap fill : ℚ) (times : List ℚ) : List ℚ :=
  if 0 < maxGap ∧ 0 < fill ∧ 2 ≤ times.length then
    if fillPass maxGap fill times = [] then times
    else List.insertionSort (· ≤ ·) (times ++ fillPass maxGap fill times)
  else times

/-- evp_utils.py lines 31-53, extract_frames_at_times: one ffmpeg
invocation per (index, timestamp) pair; a path is returned exactly for the
invocations that succeed (returncode 0 and the file exists), in order.  A
produced path is identified with the 0-based index i that names the file
frame_{i+1:03d}.png; ok i t abstracts success of the invocation. -/
def extract_frames_at_times (ok : ℕ → ℚ → Bool) (times : List ℚ) : List ℕ :=
  (times.enum.filter (fun it => ok it.1 it.2)).map Prod.fst

/-- scene_extract.py lines 181-192, the consolidation loop from i = 1:
cur is the image read from the current path, prev the image re-read from
the path at the last kept index; when either read fails the current index
is kept; otherwise it is kept exactly when the mean absolute difference is
at least the duplicate threshold; a kept index becomes the new last kept
index. -/
def consolidateAux {P F : Type} (read : P → Option F) (diff : F → F → ℚ)
    (dupTh : ℚ) (prev : P) : List (ℕ × P) → List ℕ
  | [] => []
  | (i, p) :: rest =>
    match read p, read prev with
    | some cur, some pf =>
      if dupTh ≤ diff cur pf then i :: consolidateAux read diff dupTh p rest
      else consolidateAux read diff dupTh prev rest
    | _, _ => i :: consolidateAux read diff dupTh p rest

/-- scene_extract.py lines 178-197: the kept-index list of the
consolidation pass.  When more than one path exists and duplicate
filtering is on, index 0 is kept and the loop scans indices 1..n-1;
otherwise every index is kept. -/
def keptIndices {P F : Type} (read : P → Option F) (diff : F → F → ℚ)
    (dupTh : ℚ) (paths : List P) : List ℕ :=
  match paths with
  | [] => []
  | p0 :: rest =>
    if 1 < (p0 :: rest).length ∧ 0 < dupTh then
      0 :: consolidateAux read diff dupTh p0 (List.enumFrom 1 rest)
    else
      List.range (p0 :: rest).length

/-- scene_extract.py lines 170-198: the ppt-only output tail.  paths is
the extraction result over times_sec; the consolidation pass computes the
kept indices over paths; the final frame list is paths at the kept indices
(line 195) and the final timestamp list is times_sec at the same kept
indices (line 198). -/
def finalizeOutputs {F : Type} (read : ℕ → Option F) (diff : F → F → ℚ)
    (dupTh : ℚ) (ok : ℕ → ℚ → Bool) (times : List ℚ) : List ℕ × List ℚ :=
  let paths := extract_frames_at_times ok times
  let kept := keptIndices read diff dupTh paths
  (kept.filterMap paths.get?, kept.filterMap times.get?)

/-- The static-drop decision of scene_extract.py lines 100-104, read off a
single candidate: an unreadable frame is never dropped here (it is kept at
line 101), and a readable frame is dropped exactly when static filtering
is on and the frame is static. -/
def staticDrop {F : Type} (M : Metric F) (stTh : ℚ) (ts : ℚ) : Bool :=
  match M.sample ts with
  | none => false
  | some f => decide (0 < stTh) && is_frame_static M.sharp (some f) stTh

/-- The static-filtering part of the loop of scene_extract.py lines
92-113, as a stand-alone pass: keep every candidate that staticDrop does
not drop. -/
def staticPass {F : Type} (M : Metric F) (stTh : ℚ) (l : List ℚ) : List ℚ :=
  l.filter (fun ts => ! staticDrop M stTh ts)

/-- The duplicate-filtering part of the loop of scene_extract.py lines
92-113, as a stand-alone pass: an unreadable candidate is kept and does
not update the previous kept frame; a readable candidate is dropped when
duplicate filtering is on and its frame duplicates the previous kept
frame, and otherwise is kept and becomes the previous kept frame. -/
def dupPass {F : Type} (M : Metric F) (dupTh : ℚ) : List ℚ → Option F → List ℚ
  | [], _ => []
  | ts :: rest, prev =>
    match M.sample ts with
    | none => ts :: dupPass M dupTh rest prev
    | some f =>
      if 0 < dupTh ∧ dupWithPrev M dupTh prev f then dupPass M dupTh rest prev
      else ts :: dupPass M dupTh rest (some f)

/-- Modelled from the spec: gap-coalescing step of the claimed pass order,
dropping a candidate whose distance to the previously kept candidate is
below min_time_gap, the first candidate provisionally kept. -/
def specGapLoop (g last : ℚ) : List ℚ → List ℚ
  | [] => []
  | ts :: rest =>
    if g ≤ ts - last then ts :: specGapLoop g ts rest else specGapLoop g last rest

/-- Modelled from the spec: gap coalescing with the first candidate always
provisionally kept. -/
def specGapCoalesce (g : ℚ) : List ℚ → List ℚ
  | [] => []
  | ts :: rest => ts :: specGapLoop g ts rest

/-- Modelled from the spec: static filtering, active only when the static
threshold is positive; an unreadable frame counts as static and is
dropped. -/
def specStaticPass {F : Type} (M : Metric F) (stTh : ℚ) (l : List ℚ) : List ℚ :=
  if 0 < stTh then
    l.filter (fun ts => ! is_frame_static M.sharp (M.sample ts) stTh)
  else l

/-- Modelled from the spec: duplicate filtering, active only when the
duplicate threshold is positive, walking the candidates while maintaining
the last kept frame; an unreadable frame fails the validity check and is
dropped. -/
def specDupRun {F : Type} (M : Metric F) (dupTh : ℚ) : List ℚ → Option F → List ℚ
  | [], _ => []
  | ts :: rest, prev =>
    match M.sample ts with
    | none => specDupRun M dupTh rest prev
    | some f =>
      if dupWithPrev M dupTh prev f then specDupRun M dupTh rest prev
      else ts :: specDupRun M dupTh rest (some f)

/-- Modelled from the spec: the claimed pass order of the Temporal Filter,
gap coalescing first, then static filtering, then duplicate filtering. -/
def specOrderFilter {F : Type} (M : Metric F) (stTh dupTh g : ℚ) (l : List ℚ) : List ℚ :=
  let l1 := specGapCoalesce g l
  let l2 := specStaticPass M stTh l1
  if 0 < dupTh then specDupRun M dupTh l2 none else l2

/-- The absolute difference of two rationals, written with an explicit
branch; used as a concrete instance of the mean-absolute-difference frame
metric in witnesses. -/
def ratDist (a b : ℚ) : ℚ := if a ≤ b then b - a else a - b

/-- A concrete metric over frames that are rationals: sampling at time t
yields the frame t itself, sharpness is the value, dissimilarity the
absolute difference. -/
def Mid : Metric ℚ := ⟨fun t => some t, id, ratDist⟩

/-- A concrete metric whose frame sampling always fails. -/
def Mnone : Metric ℚ := ⟨fun _ => none, id, fun _ _ => 0⟩

/-- A concrete frame-content function: value 10 at time 1, value 1/2 at
time 3, value 0 elsewhere. -/
def vIdem (t : ℚ) : ℚ := if t = 1 then 10 else if t = 3 then 1/2 else 0

/-- A concrete metric realizing vIdem: sampling at t yields frame vIdem t,
dissimilarity is the absolute difference. -/
def MIdem : Metric ℚ := ⟨fun t => some (vIdem t), id, fun a b => ratDist a b⟩

/-- Every kept element of the min-gap loop is at least g after the running
last kept time and strictly above it, provided the input is sorted and
starts no earlier than the last kept time. -/
theorem gapLoop_chain (g : ℚ) :
    ∀ (l : List ℚ) (last : ℚ), List.Sorted (· ≤ ·) (last :: l) →
      List.Chain (fun a b => g ≤ b - a ∧ a < b) last (gapLoop g last l) := by
  intro l
  induction l with
  | nil => intro last _; simp [gapLoop]
  | cons ts rest ih =>
    intro last hs
    have hts : last ≤ ts := (List.sorted_cons.mp hs).1 ts (by simp)
    have hrest : List.Sorted (· ≤ ·) (last :: rest) :=
      hs.sublist ((List.sublist_cons_self ts rest).cons₂ last)
    have hrest2 : List.Sorted (· ≤ ·) (ts :: rest) := (List.sorted_cons.mp hs).2
    rw [gapLoop]
    by_cases he : ts = last
    · simp only [if_pos he]
      exact ih last hrest
    · rw [if_neg he]
      by_cases hg : g ≤ ts - last
      · rw [if_pos hg]
        exact List.Chain.cons ⟨hg, lt_of_le_of_ne hts (Ne.symm he)⟩ (ih ts hrest2)
      · rw [if_neg hg]
        exact ih last hrest

/-- The output of the min-gap coalescing pass over a sorted list links
every adjacent pair by a distance of at least g and strict increase. -/
theorem gapCoalesce_chain (g : ℚ) (l : List ℚ) (hs : List.Sorted (· ≤ ·) l) :
    List.Chain' (fun a b => g ≤ b - a ∧ a < b) (gapCoalesce g l) := by
  cases l with
  | nil => simp [gapCoalesce]
  | cons ts rest => exact gapLoop_chain g rest ts hs

/-- A list already linked by the min-gap relation passes the loop
unchanged. -/
theorem gapLoop_id (g : ℚ) :
    ∀ (l : List ℚ) (last : ℚ), List.Chain (fun a b => g ≤ b - a ∧ a < b) last l →
      gapLoop g last l = l := by
  intro l
  induction l with
  | nil => intro last _; simp [gapLoop]
  | cons ts rest ih =>
    intro last hc
    rcases List.chain_cons.mp hc with ⟨⟨hg, hlt⟩, hrest⟩
    rw [gapLoop, if_neg (by exact fun h => absurd h (by exact ne_of_gt hlt)), if_pos hg,
      ih ts hrest]

/-- A list already linked by the min-gap relation passes the coalescing
pass unchanged. -/
theorem gapCoalesce_id (g : ℚ) (l : List ℚ)
    (hc : List.Chain' (fun a b => g ≤ b - a ∧ a < b) l) : gapCoalesce g l = l := by
  cases l with
  | nil => rfl
  | cons ts rest => rw [gapCoalesce, gapLoop_id g rest ts hc]

/-- The min-gap loop keeps a sublist of its input. -/
theorem gapLoop_sublist (g : ℚ) :
    ∀ (l : List ℚ) (last : ℚ), List.Sublist (gapLoop g last l) l := by
  intro l
  induction l with
  | nil => intro last; simp [gapLoop]
  | cons ts rest ih =>
    intro last
    rw [gapLoop]
    by_cases he : ts = last
    · rw [if_pos he]
      exact (ih last).cons ts
    · rw [if_neg he]
      by_cases hg : g ≤ ts - last
      · rw [if_pos hg]
        exact (ih ts).cons₂ ts
      · rw [if_neg hg]
        exact (ih last).cons ts

/-- The min-gap coalescing pass keeps a sublist of its input. -/
theorem gapCoalesce_sublist (g : ℚ) (l : List ℚ) : List.Sublist (gapCoalesce g l) l := by
  cases l with
  | nil => simp [gapCoalesce]
  | cons ts rest => exact (gapLoop_sublist g rest ts).cons₂ ts

/-- C4: for every parameter set with min_time_gap = g at least 0 and every
candidate sequence, adjacent candidates in the Temporal Filter's output
(scene_extract.py lines 86-134) are at least g apart, and the output is
strictly increasing, hence has no two equal timestamps. -/
theorem temporalFilter_min_gap_invariant {F : Type} (M : Metric F)
    (startSec endSec : Option ℚ) (stTh dupTh g : ℚ) (l : List ℚ) (hg : 0 ≤ g) :
    List.Chain' (fun a b => g ≤ b - a) (temporalFilter M startSec endSec stTh dupTh g l) ∧
    List.Sorted (· < ·) (temporalFilter M startSec endSec stTh dupTh g l) := by
  have hs : List.Sorted (· ≤ ·)
      (List.insertionSort (· ≤ ·) (collectTimes M startSec endSec stTh dupTh l)) :=
    List.sorted_insertionSort _ _
  have hc := gapCoalesce_chain (max 0 g) _ hs
  refine ⟨hc.imp fun a b h => le_trans (le_max_right 0 g) h.1, ?_⟩
  exact List.chain'_iff_pairwise.mp (hc.imp fun a b h => h.2)

/-- Witness for temporalFilter_min_gap_invariant at a concrete metric,
gap 1/2 and candidate list [0, 1, 3]. -/
theorem temporalFilter_min_gap_invariant_witness :
    0 ≤ (1/2 : ℚ) ∧
    (List.Chain' (fun a b => 1/2 ≤ b - a) (temporalFilter Mid none none 0 0 (1/2) [0, 1, 3]) ∧
     List.Sorted (· < ·) (temporalFilter Mid none none 0 0 (1/2) [0, 1, 3])) :=
  ⟨by norm_num,
   temporalFilter_min_gap_invariant Mid none none 0 0 (1/2) [0, 1, 3] (by norm_num)⟩

/-- Unfolding of the stand-alone static pass on a cons cell. -/
theorem staticPass_cons {F : Type} (M : Metric F) (stTh : ℚ) (s : ℚ) (l : List ℚ) :
    staticPass M stTh (s :: l) =
      if staticDrop M stTh s then staticPass M stTh l else s :: staticPass M stTh l := by
  by_cases h : staticDrop M stTh s
  · simp [staticPass, List.filter_cons, h]
  · simp [staticPass, List.filter_cons, h]

/-- Unfolding of the duplicate pass at an unreadable candidate. -/
theorem dupPass_cons_none {F : Type} (M : Metric F) (dupTh ts : ℚ) (rest : List ℚ)
    (prev : Option F) (h : M.sample ts = none) :
    dupPass M dupTh (ts :: rest) prev = ts :: dupPass M dupTh rest prev := by
  simp [dupPass, h]

/-- Unfolding of the duplicate pass at a readable duplicate candidate. -/
theorem dupPass_cons_dup {F : Type} (M : Metric F) (dupTh ts : ℚ) (rest : List ℚ)
    (prev : Option F) (f : F) (h : M.sample ts = some f)
    (hd : 0 < dupTh ∧ dupWithPrev M dupTh prev f) :
    dupPass M dupTh (ts :: rest) prev = dupPass M dupTh rest prev := by
  simp [dupPass, h, hd.1, hd.2]

/-- Unfolding of the duplicate pass at a readable kept candidate. -/
theorem dupPass_cons_keep {F : Type} (M : Metric F) (dupTh ts : ℚ) (rest : List ℚ)
    (prev : Option F) (f : F) (h : M.sample ts = some f)
    (hd : ¬(0 < dupTh ∧ dupWithPrev M dupTh prev f)) :
    dupPass M dupTh (ts :: rest) prev = ts :: dupPass M dupTh rest (some f) := by
  rw [dupPass, h]
  simp only [if_neg hd]

/-- The fused sampling loop of scene_extract.py lines 92-113 computes the
window filter, then the stand-alone static pass, then the stand-alone
duplicate pass. -/
theorem scanScenes_eq_passes {F : Type} (M : Metric F) (sS eS : Option ℚ) (stTh dupTh : ℚ) :
    ∀ (l : List ℚ) (prev : Option F),
      scanScenes M sS eS stTh dupTh l prev =
        dupPass M dupTh (staticPass M stTh (l.filter (windowOk sS eS))) prev := by
  intro l
  induction l with
  | nil => intro prev; simp [scanScenes, staticPass, dupPass]
  | cons s rest ih =>
    intro prev
    by_cases hw : windowOk sS eS s
    · rw [scanScenes, if_neg (by simp [hw]), List.filter_cons, if_pos hw, staticPass_cons]
      cases hsample : M.sample s with
      | none =>
        have hsd : staticDrop M stTh s = false := by simp [staticDrop, hsample]
        rw [hsd, if_neg (by simp), dupPass_cons_none M dupTh s _ prev hsample, ih prev]
      | some f =>
        by_cases hst : 0 < stTh ∧ is_frame_static M.sharp (some f) stTh
        · have hsd : staticDrop M stTh s = true := by
            simp [staticDrop, hsample, hst.1, hst.2]
          rw [hsd, if_pos rfl]
          simp only [if_pos hst]
          exact ih prev
        · have hsd : staticDrop M stTh s = false := by
            simp only [staticDrop, hsample, Bool.and_eq_false_iff]
            rcases Decidable.not_and_iff_or_not.mp hst with h | h
            · left; simpa using h
            · right; simpa using h
          rw [hsd, if_neg (by simp)]
          simp only [if_neg hst]
          by_cases hdup : 0 < dupTh ∧ dupWithPrev M dupTh prev f
          · rw [dupPass_cons_dup M dupTh s _ prev f hsample hdup]
            simp only [if_pos hdup]
            exact ih prev
          · rw [dupPass_cons_keep M dupTh s _ prev f hsample hdup]
            simp only [if_neg hdup]
            rw [ih (some f)]
    · rw [scanScenes, if_pos (by simpa using hw), List.filter_cons, if_neg hw]
      exact ih prev

/-- With duplicate filtering disabled the stand-alone duplicate pass keeps
everything. -/
theorem dupPass_nonpos {F : Type} (M : Metric F) (dupTh : ℚ) (hd : dupTh ≤ 0) :
    ∀ (l : List ℚ) (prev : Option F), dupPass M dupTh l prev = l := by
  intro l
  induction l with
  | nil => intro prev; simp [dupPass]
  | cons ts rest ih =>
    intro prev
    cases hsample : M.sample ts with
    | none => rw [dupPass_cons_none M dupTh ts rest prev hsample, ih prev]
    | some f =>
      rw [dupPass_cons_keep M dupTh ts rest prev f hsample
        (fun h => absurd h.1 (not_lt.mpr hd)), ih (some f)]

/-- With static filtering disabled the stand-alone static pass keeps
everything. -/
theorem staticPass_nonpos {F : Type} (M : Metric F) (stTh : ℚ) (hs : stTh ≤ 0) (l : List ℚ) :
    staticPass M stTh l = l := by
  have h : ∀ ts, staticDrop M stTh ts = false := by
    intro ts
    cases hsample : M.sample ts with
    | none => simp [staticDrop, hsample]
    | some f => simp [staticDrop, hsample, not_lt.mpr hs]
  simp [staticPass, h]

/-- scene_extract.py lines 87-123: in both branches (filtering enabled or
not) the collected times equal the window filter, then the static pass,
then the duplicate pass. -/
theorem collectTimes_eq_passes {F : Type} (M : Metric F) (sS eS : Option ℚ)
    (stTh dupTh : ℚ) (l : List ℚ) :
    collectTimes M sS eS stTh dupTh l =
      dupPass M dupTh (staticPass M stTh (l.filter (windowOk sS eS))) none := by
  rw [collectTimes]
  by_cases h : 0 < stTh ∨ 0 < dupTh
  · rw [if_pos h, scanScenes_eq_passes]
  · push_neg at h
    rw [if_neg (by push_neg; exact h), staticPass_nonpos M stTh h.1,
      dupPass_nonpos M dupTh h.2]

/-- C2 counterexample: at metric Mid with static threshold 1/10, duplicate
threshold 0 and min gap 1/2, on candidates [0, 2/5, 4/5] the code's filter
(static filtering before gap coalescing) yields [2/5], while the claimed
order (gap coalescing first, then static, then duplicate filtering) yields
[4/5]. -/
theorem temporalFilter_pass_order_counterexample :
    temporalFilter Mid none none (1/10) 0 (1/2) [0, 2/5, 4/5] = [2/5] ∧
    specOrderFilter Mid (1/10) 0 (1/2) [0, 2/5, 4/5] = [4/5] ∧
    temporalFilter Mid none none (1/10) 0 (1/2) [0, 2/5, 4/5] ≠
      specOrderFilter Mid (1/10) 0 (1/2) [0, 2/5, 4/5] := by
  refine ⟨?_, ?_, ?_⟩ <;>
    norm_num [temporalFilter, collectTimes, scanScenes, gapCoalesce, gapLoop, windowOk,
      dupWithPrev, is_frame_static, Mid, ratDist, List.insertionSort, List.orderedInsert,
      specOrderFilter, specGapCoalesce, specGapLoop, specStaticPass, specDupRun]

/-- C2 (amended): the Temporal Filter of scene_extract.py lines 86-134
equals window filtering, then static filtering, then duplicate filtering
(one fused pass in the code, provably equal to the separate passes), then
sorting, then gap coalescing last with min_gap clamped at 0 — not gap
coalescing first as claimed. -/
theorem temporalFilter_pass_order {F : Type} (M : Metric F) (sS eS : Option ℚ)
    (stTh dupTh g : ℚ) (l : List ℚ) :
    temporalFilter M sS eS stTh dupTh g l =
      gapCoalesce (max 0 g) (List.insertionSort (· ≤ ·)
        (dupPass M dupTh (staticPass M stTh (l.filter (windowOk sS eS))) none)) := by
  rw [temporalFilter, collectTimes_eq_passes]

/-- The duplicate pass keeps a sublist of its input. -/
theorem dupPass_sublist {F : Type} (M : Metric F) (dupTh : ℚ) :
    ∀ (l : List ℚ) (prev : Option F), List.Sublist (dupPass M dupTh l prev) l := by
  intro l
  induction l with
  | nil => intro prev; simp [dupPass]
  | cons ts rest ih =>
    intro prev
    cases hsample : M.sample ts with
    | none =>
      rw [dupPass_cons_none M dupTh ts rest prev hsample]
      exact (ih prev).cons₂ ts
    | some f =>
      by_cases hdup : 0 < dupTh ∧ dupWithPrev M dupTh prev f
      · rw [dupPass_cons_dup M dupTh ts rest prev f hsample hdup]
        exact (ih prev).cons ts
      · rw [dupPass_cons_keep M dupTh ts rest prev f hsample hdup]
        exact (ih (some f)).cons₂ ts

/-- Every collected time lies in the window and is not dropped as
static. -/
theorem mem_collectTimes {F : Type} (M : Metric F) (sS eS : Option ℚ)
    (stTh dupTh : ℚ) (l : List ℚ) (x : ℚ) (hx : x ∈ collectTimes M sS eS stTh dupTh l) :
    windowOk sS eS x = true ∧ staticDrop M stTh x = false := by
  rw [collectTimes_eq_passes] at hx
  have hx1 : x ∈ staticPass M stTh (l.filter (windowOk sS eS)) :=
    (dupPass_sublist M dupTh _ none).subset hx
  rw [staticPass, List.mem_filter] at hx1
  rcases hx1 with ⟨hx2, hkeep⟩
  rw [List.mem_filter] at hx2
  exact ⟨hx2.2, by simpa using hkeep⟩

/-- When duplicate filtering is disabled, the collection pass keeps every
candidate that is in the window and not statically dropped. -/
theorem collectTimes_keep_all {F : Type} (M : Metric F) (sS eS : Option ℚ)
    (stTh dupTh : ℚ) (l : List ℚ) (hd : dupTh ≤ 0)
    (h : ∀ x ∈ l, windowOk sS eS x = true ∧ staticDrop M stTh x = false) :
    collectTimes M sS eS stTh dupTh l = l := by
  rw [collectTimes_eq_passes, List.filter_eq_self.mpr (fun x hx => (h x hx).1)]
  rw [staticPass, List.filter_eq_self.mpr (fun x hx => by simp [(h x hx).2])]
  exact dupPass_nonpos M dupTh hd l none

/-- The Temporal Filter's output is chained by the clamped min gap with
strict increase. -/
theorem temporalFilter_chain_max {F : Type} (M : Metric F) (sS eS : Option ℚ)
    (stTh dupTh g : ℚ) (l : List ℚ) :
    List.Chain' (fun a b => max 0 g ≤ b - a ∧ a < b)
      (temporalFilter M sS eS stTh dupTh g l) :=
  gapCoalesce_chain _ _ (List.sorted_insertionSort _ _)

/-- C8 counterexample: with duplicate threshold 1 and min gap 2 on the
concrete metric MIdem and candidates [0, 1, 3], the Temporal Filter yields
[0, 3], but run again on its own output it yields [0]: gap coalescing
removed the candidate at time 1 whose frame was the reference for the
duplicate comparison that had kept time 3. -/
theorem temporalFilter_not_idempotent :
    temporalFilter MIdem none none 0 1 2 [0, 1, 3] = [0, 3] ∧
    temporalFilter MIdem none none 0 1 2 (temporalFilter MIdem none none 0 1 2 [0, 1, 3]) = [0] ∧
    temporalFilter MIdem none none 0 1 2 (temporalFilter MIdem none none 0 1 2 [0, 1, 3]) ≠
      temporalFilter MIdem none none 0 1 2 [0, 1, 3] := by
  refine ⟨?_, ?_, ?_⟩ <;>
    norm_num [temporalFilter, collectTimes, scanScenes, gapCoalesce, gapLoop, windowOk,
      dupWithPrev, is_frame_static, MIdem, vIdem, ratDist, List.insertionSort,
      List.orderedInsert]

/-- C8 (amended): with duplicate filtering disabled (duplicate threshold
at most 0) the Temporal Filter is idempotent: applied to its own output
with the same parameters it returns that output unchanged. -/
theorem temporalFilter_idempotent_no_dup {F : Type} (M : Metric F) (sS eS : Option ℚ)
    (stTh dupTh g : ℚ) (l : List ℚ) (hd : dupTh ≤ 0) :
    temporalFilter M sS eS stTh dupTh g (temporalFilter M sS eS stTh dupTh g l) =
      temporalFilter M sS eS stTh dupTh g l := by
  have hchain := temporalFilter_chain_max M sS eS stTh dupTh g l
  have hsortlt : List.Sorted (· < ·) (temporalFilter M sS eS stTh dupTh g l) :=
    List.chain'_iff_pairwise.mp (hchain.imp fun a b h => h.2)
  have hsortle : List.Sorted (· ≤ ·) (temporalFilter M sS eS stTh dupTh g l) :=
    hsortlt.imp fun h => le_of_lt h
  have hmem : ∀ x ∈ temporalFilter M sS eS stTh dupTh g l,
      windowOk sS eS x = true ∧ staticDrop M stTh x = false := by
    intro x hx
    have hx1 : x ∈ List.insertionSort (· ≤ ·) (collectTimes M sS eS stTh dupTh l) :=
      (gapCoalesce_sublist _ _).subset hx
    have hx2 : x ∈ collectTimes M sS eS stTh dupTh l :=
      (List.perm_insertionSort (· ≤ ·) _).subset hx1
    exact mem_collectTimes M sS eS stTh dupTh l x hx2
  rw [temporalFilter, collectTimes_keep_all M sS eS stTh dupTh _ hd hmem,
    hsortle.insertionSort_eq, gapCoalesce_id _ _ hchain]

/-- Witness for temporalFilter_idempotent_no_dup at the metric Mid with
all thresholds 0, min gap 1/2 and candidates [0, 1, 3]. -/
theorem temporalFilter_idempotent_no_dup_witness :
    (0 : ℚ) ≤ 0 ∧
    temporalFilter Mid none none 0 0 (1/2) (temporalFilter Mid none none 0 0 (1/2) [0, 1, 3]) =
      temporalFilter Mid none none 0 0 (1/2) [0, 1, 3] :=
  ⟨le_refl 0, temporalFilter_idempotent_no_dup Mid none none 0 0 (1/2) [0, 1, 3] (le_refl 0)⟩

/-- The duplicate pass keeps every candidate whose frame read fails. -/
theorem dupPass_all_unreadable {F : Type} (M : Metric F) (dupTh : ℚ) :
    ∀ (l : List ℚ) (prev : Option F), (∀ t ∈ l, M.sample t = none) →
      dupPass M dupTh l prev = l := by
  intro l
  induction l with
  | nil => intro prev _; simp [dupPass]
  | cons ts rest ih =>
    intro prev hall
    rw [dupPass_cons_none M dupTh ts rest prev (hall ts (by simp)),
      ih prev (fun t ht => hall t (by simp [ht]))]

/-- When every image read fails, the consolidation loop keeps every
index. -/
theorem consolidateAux_all_unreadable {P F : Type} (read : P → Option F)
    (diff : F → F → ℚ) (dupTh : ℚ) (hread : ∀ p, read p = none) :
    ∀ (l : List (ℕ × P)) (prev : P),
      consolidateAux read diff dupTh prev l = l.map Prod.fst := by
  intro l
  induction l with
  | nil => intro prev; simp [consolidateAux]
  | cons ip rest ih =>
    intro prev
    rcases ip with ⟨i, p⟩
    rw [consolidateAux, hread p]
    simp only [List.map_cons]
    rw [ih p]

/-- C1 counterexample: a candidate whose frame sample fails is kept, not
dropped: with a metric whose sampling always fails and both thresholds
positive, the Temporal Filter keeps the candidate at time 5, and the
Consolidator with an always-failing image read keeps both of two paths. -/
theorem unreadable_dropped_counterexample :
    temporalFilter Mnone none none 1 1 0 [5] = [5] ∧
    keptIndices (fun _ : ℕ => (none : Option ℚ)) ratDist (3/2) [0, 1] = [0, 1] := by
  constructor
  · norm_num [temporalFilter, collectTimes, scanScenes, gapCoalesce, gapLoop, windowOk,
      dupWithPrev, is_frame_static, Mnone, List.insertionSort, List.orderedInsert]
  · norm_num [keptIndices, consolidateAux, List.enumFrom, List.range, List.range.loop]

/-- C1 (amended): a failed frame sample does not raise and does not drop
the candidate: the Frame Metric alone treats a missing frame as static,
but the Temporal Filter's sampling loop keeps every candidate whose
sample fails (reducing to the pure window filter when all samples fail),
and the Consolidator keeps every index when all image reads fail. -/
theorem unreadable_candidates_kept {F P : Type} (M : Metric F) (sS eS : Option ℚ)
    (stTh dupTh : ℚ) (l : List ℚ) (prev : Option F) (read : P → Option F)
    (diff : F → F → ℚ) (dupTh2 : ℚ) (paths : List P)
    (hall : ∀ t ∈ l, M.sample t = none) (hread : ∀ p, read p = none) :
    is_frame_static M.sharp none stTh = true ∧
    scanScenes M sS eS stTh dupTh l prev = l.filter (windowOk sS eS) ∧
    keptIndices read diff dupTh2 paths = List.range paths.length := by
  refine ⟨rfl, ?_, ?_⟩
  · rw [scanScenes_eq_passes]
    have h1 : staticPass M stTh (l.filter (windowOk sS eS)) = l.filter (windowOk sS eS) := by
      refine List.filter_eq_self.mpr fun x hx => ?_
      have hx2 : x ∈ l := (List.filter_sublist l).subset hx
      simp [staticDrop, hall x hx2]
    rw [h1]
    exact dupPass_all_unreadable M dupTh _ prev
      (fun t ht => hall t ((List.filter_sublist l).subset ht))
  · rcases paths with _ | ⟨p0, rest⟩
    · simp [keptIndices]
    · rw [keptIndices]
      by_cases hcond : 1 < (p0 :: rest).length ∧ 0 < dupTh2
      · rw [if_pos hcond, consolidateAux_all_unreadable read diff dupTh2 hread _ p0,
          List.enumFrom_map_fst]
        simp only [List.length_cons]
        rw [List.range_eq_range']
        rfl
      · rw [if_neg hcond]

/-- Witness for unreadable_candidates_kept at the always-failing metric
Mnone, candidate list [5] and a single path. -/
theorem unreadable_candidates_kept_witness :
    (∀ t ∈ ([5] : List ℚ), Mnone.sample t = none) ∧
    (∀ p : ℕ, (fun _ : ℕ => (none : Option ℚ)) p = none) ∧
    (is_frame_static Mnone.sharp none 1 = true ∧
     scanScenes Mnone none none 1 1 [5] none = List.filter (windowOk none none) [5] ∧
     keptIndices (fun _ : ℕ => (none : Option ℚ)) ratDist (3/2) [7] = List.range 1) :=
  ⟨fun t _ => rfl, fun p => rfl,
   unreadable_candidates_kept Mnone none none 1 1 [5] none
     (fun _ : ℕ => (none : Option ℚ)) ratDist (3/2) [7]
     (fun t _ => rfl) (fun p => rfl)⟩

/-- C3 counterexample: on detector intervals [0,2],[2,5],[5,40],[40,42]
with no window, the code's normalization yields the interval starts
[0, 2, 5, 40], not the midpoints [1, 3.5, 22.5, 41] the claim requires;
no midpoint policy exists in the code. -/
theorem midpoint_policy_counterexample :
    normalizeCandidates none none [(0, 2), (2, 5), (5, 40), (40, 42)] = [0, 2, 5, 40] ∧
    normalizeCandidates none none [(0, 2), (2, 5), (5, 40), (40, 42)] ≠ [1, 7/2, 45/2, 41] := by
  constructor <;>
    norm_num [normalizeCandidates, intervalRepresentative, windowOk,
      List.insertionSort, List.orderedInsert]

/-- C3 (amended): only the start-of-interval representative policy is
implemented: on the intervals of the scenario the candidates are
[0, 2, 5, 40], and in general every normalized candidate is the start of
some detected interval. -/
theorem normalize_start_of_interval :
    normalizeCandidates none none [(0, 2), (2, 5), (5, 40), (40, 42)] = [0, 2, 5, 40] ∧
    ∀ (sS eS : Option ℚ) (scenes : List (ℚ × ℚ)) (x : ℚ),
      x ∈ normalizeCandidates sS eS scenes → ∃ iv ∈ scenes, x = iv.1 := by
  constructor
  · norm_num [normalizeCandidates, intervalRepresentative, windowOk,
      List.insertionSort, List.orderedInsert]
  · intro sS eS scenes x hx
    rw [normalizeCandidates] at hx
    have hx1 : x ∈ (scenes.map intervalRepresentative).filter (windowOk sS eS) :=
      (List.perm_insertionSort (· ≤ ·) _).subset hx
    have hx2 : x ∈ scenes.map intervalRepresentative :=
      (List.filter_sublist _).subset hx1
    rcases List.mem_map.mp hx2 with ⟨iv, hiv, hrep⟩
    exact ⟨iv, hiv, hrep ▸ rfl⟩

/-- Witness for normalize_start_of_interval: the candidate 0 produced from
the single interval (0, 2) is the start of that interval. -/
theorem normalize_start_of_interval_witness :
    (0 : ℚ) ∈ normalizeCandidates none none [(0, 2)] ∧
    ∃ iv ∈ [((0 : ℚ), (2 : ℚ))], (0 : ℚ) = iv.1 := by
  have hmem : (0 : ℚ) ∈ normalizeCandidates none none [(0, 2)] := by
    norm_num [normalizeCandidates, intervalRepresentative, windowOk,
      List.insertionSort, List.orderedInsert]
  exact ⟨hmem, normalize_start_of_interval.2 none none [(0, 2)] 0 hmem⟩

/-- C6: when filtering leaves zero candidates the stage returns the single
fallback candidate at window start (or 0 without a window) with the
degraded-detection signal set, and the returned candidate list is never
empty; an empty detector result in particular yields the fallback. -/
theorem temporalFilter_fallback_single {F : Type} (M : Metric F) (sS eS : Option ℚ)
    (stTh dupTh g : ℚ) (scenes : List ℚ) :
    (temporalFilterWithFallback M sS eS stTh dupTh g scenes).1 ≠ [] ∧
    (temporalFilter M sS eS stTh dupTh g scenes = [] →
      temporalFilterWithFallback M sS eS stTh dupTh g scenes = ([sS.getD 0], true)) ∧
    (temporalFilter M sS eS stTh dupTh g scenes ≠ [] →
      temporalFilterWithFallback M sS eS stTh dupTh g scenes =
        (temporalFilter M sS eS stTh dupTh g scenes, false)) ∧
    temporalFilterWithFallback M sS eS stTh dupTh g [] = ([sS.getD 0], true) := by
  refine ⟨?_, fun h => by simp [temporalFilterWithFallback, h], fun h => by
    simp [temporalFilterWithFallback, h], ?_⟩
  · rw [temporalFilterWithFallback]
    by_cases h : temporalFilter M sS eS stTh dupTh g scenes = []
    · simp [h]
    · simp [h]
  · have hempty : temporalFilter M sS eS stTh dupTh g [] = [] := by
      rw [temporalFilter, collectTimes]
      split_ifs <;> simp [scanScenes, gapCoalesce]
    simp [temporalFilterWithFallback, hempty]

/-- Witness for temporalFilter_fallback_single: with a very high static
threshold every candidate is filtered out and the fallback [0] with the
degraded signal is returned. -/
theorem temporalFilter_fallback_single_witness :
    temporalFilter Mid none none 100 0 0 [5] = [] ∧
    temporalFilterWithFallback Mid none none 100 0 0 [5] = ([0], true) := by
  have h : temporalFilter Mid none none 100 0 0 [5] = [] := by
    norm_num [temporalFilter, collectTimes, scanScenes, gapCoalesce, gapLoop, windowOk,
      dupWithPrev, is_frame_static, Mid, ratDist, List.insertionSort, List.orderedInsert]
  exact ⟨h, (temporalFilter_fallback_single Mid none none 100 0 0 [5]).2.1 h⟩

/-- C9 counterexample: a negative min gap is not rejected: the filtering
stage runs to completion and returns a normal candidate list. -/
theorem invalid_params_not_rejected :
    temporalFilter Mid none none 0 0 (-1) [0, 1] = [0, 1] := by
  norm_num [temporalFilter, collectTimes, scanScenes, gapCoalesce, gapLoop, windowOk,
    dupWithPrev, is_frame_static, Mid, ratDist, List.insertionSort, List.orderedInsert]

/-- C9 (amended): no pre-flight parameter validation exists; a negative
min gap is silently clamped to 0 (scene_extract.py line 127), so the run
behaves exactly as with min gap 0. -/
theorem negative_min_gap_clamped {F : Type} (M : Metric F) (sS eS : Option ℚ)
    (stTh dupTh g : ℚ) (l : List ℚ) (hg : g ≤ 0) :
    temporalFilter M sS eS stTh dupTh g l = temporalFilter M sS eS stTh dupTh 0 l := by
  rw [temporalFilter, temporalFilter, max_eq_left hg, max_self]

/-- Witness for negative_min_gap_clamped at min gap -1. -/
theorem negative_min_gap_clamped_witness :
    (-1 : ℚ) ≤ 0 ∧
    temporalFilter Mid none none 0 0 (-1) [0, 1] = temporalFilter Mid none none 0 0 0 [0, 1] :=
  ⟨by norm_num, negative_min_gap_clamped Mid none none 0 0 (-1) [0, 1] (by norm_num)⟩

/-- The consolidation loop keeps a sublist of the scanned indices. -/
theorem consolidateAux_sublist {P F : Type} (read : P → Option F) (diff : F → F → ℚ)
    (dupTh : ℚ) :
    ∀ (l : List (ℕ × P)) (prev : P),
      List.Sublist (consolidateAux read diff dupTh prev l) (l.map Prod.fst) := by
  intro l
  induction l with
  | nil => intro prev; simp [consolidateAux]
  | cons ip rest ih =>
    intro prev
    rcases ip with ⟨i, p⟩
    rw [consolidateAux]
    cases hcur : read p with
    | none =>
      cases hprev : read prev with
      | none => exact (ih p).cons₂ i
      | some pf => exact (ih p).cons₂ i
    | some cur =>
      cases hprev : read prev with
      | none => exact (ih p).cons₂ i
      | some pf =>
        dsimp only
        by_cases hk : dupTh ≤ diff cur pf
        · rw [if_pos hk]
          exact (ih p).cons₂ i
        · rw [if_neg hk]
          exact (ih prev).cons i

/-- The kept indices of the consolidation pass form a sublist of the index
range of the path list. -/
theorem keptIndices_sublist_range {P F : Type} (read : P → Option F) (diff : F → F → ℚ)
    (dupTh : ℚ) (paths : List P) :
    List.Sublist (keptIndices read diff dupTh paths) (List.range paths.length) := by
  rcases paths with _ | ⟨p0, rest⟩
  · simp [keptIndices]
  · rw [keptIndices]
    by_cases hcond : 1 < (p0 :: rest).length ∧ 0 < dupTh
    · rw [if_pos hcond]
      have h1 : List.Sublist (consolidateAux read diff dupTh p0 (List.enumFrom 1 rest))
          ((List.enumFrom 1 rest).map Prod.fst) := consolidateAux_sublist read diff dupTh _ p0
      rw [List.enumFrom_map_fst] at h1
      have h2 : List.range (p0 :: rest).length = 0 :: List.range' 1 rest.length := by
        simp only [List.length_cons]
        rw [List.range_eq_range']
        rfl
      rw [h2]
      exact h1.cons₂ 0
    · rw [if_neg hcond]

/-- Reading back positions below the range bound is the identity. -/
theorem filterMap_get_range_of_lt (n : ℕ) :
    ∀ (l : List ℕ), (∀ j ∈ l, j < n) → l.filterMap (List.range n).get? = l := by
  intro l
  induction l with
  | nil => intro _; simp
  | cons j rest ih =>
    intro h
    have hj : (List.range n).get? j = some j := by
      simp [List.getElem?_range (h j (by simp))]
    rw [List.filterMap_cons_some hj, ih (fun x hx => h x (by simp [hx]))]

/-- C7: the Consolidator's kept indices form a subsequence of the index
range, the kept frames form a subsequence of the received frames (hence no
reordering and no more frames than received), the first frame is always
retained, and with duplicate filtering off every frame is kept. -/
theorem consolidator_subsequence {P F : Type} (read : P → Option F) (diff : F → F → ℚ)
    (dupTh : ℚ) (paths : List P) :
    List.Sublist (keptIndices read diff dupTh paths) (List.range paths.length) ∧
    List.Sublist ((keptIndices read diff dupTh paths).filterMap paths.get?) paths ∧
    ((keptIndices read diff dupTh paths).filterMap paths.get?).length ≤ paths.length ∧
    (paths ≠ [] → (keptIndices read diff dupTh paths).head? = some 0) ∧
    (dupTh ≤ 0 → keptIndices read diff dupTh paths = List.range paths.length) := by
  have hrange : (List.range paths.length).filterMap paths.get? = paths := by
    clear read diff
    induction paths with
    | nil => simp
    | cons a t ih =>
      simp only [List.length_cons, List.range_succ_eq_map, List.filterMap_cons,
        List.filterMap_map]
      simpa using ih
  have hsub : List.Sublist ((keptIndices read diff dupTh paths).filterMap paths.get?) paths := by
    have := (keptIndices_sublist_range read diff dupTh paths).filterMap paths.get?
    rwa [hrange] at this
  refine ⟨keptIndices_sublist_range read diff dupTh paths, hsub, hsub.length_le, ?_, ?_⟩
  · intro hne
    rcases paths with _ | ⟨p0, rest⟩
    · exact absurd rfl hne
    · rw [keptIndices]
      by_cases hcond : 1 < (p0 :: rest).length ∧ 0 < dupTh
      · rw [if_pos hcond]
        rfl
      · rw [if_neg hcond]
        simp only [List.length_cons]
        rw [List.range_eq_range']
        rfl
  · intro hle
    rcases paths with _ | ⟨p0, rest⟩
    · simp [keptIndices]
    · rw [keptIndices, if_neg (fun h => absurd h.2 (not_lt.mpr hle))]

/-- Witness for consolidator_subsequence on three paths read as frames
0, 0, 5 with duplicate threshold 1: the list is nonempty and index 0 leads
the kept indices. -/
theorem consolidator_subsequence_witness :
    ([(0 : ℕ), 0, 5] ≠ []) ∧
    (keptIndices (fun p : ℕ => some ((p : ℚ))) ratDist 1 [0, 0, 5]).head? = some 0 :=
  ⟨by simp,
   (consolidator_subsequence (fun p : ℕ => some ((p : ℚ))) ratDist 1 [0, 0, 5]).2.2.2.1
     (by simp)⟩

/-- When every extraction succeeds the produced paths are exactly the
indices 0..n-1. -/
theorem extract_all_ok (ok : ℕ → ℚ → Bool) (times : List ℚ)
    (hok : ∀ p ∈ times.enum, ok p.1 p.2 = true) :
    extract_frames_at_times ok times = List.range times.length := by
  rw [extract_frames_at_times, List.filter_eq_self.mpr hok, List.enum_map_fst]

/-- C10: when frame extraction succeeds at every candidate timestamp, the
final frame list is exactly the kept indices of the Consolidator over the
full index range, and the final timestamp list pairs each kept frame with
its own candidate timestamp. -/
theorem finalize_pairing {F : Type} (read : ℕ → Option F) (diff : F → F → ℚ)
    (dupTh : ℚ) (ok : ℕ → ℚ → Bool) (times : List ℚ)
    (hok : ∀ p ∈ times.enum, ok p.1 p.2 = true) :
    (finalizeOutputs read diff dupTh ok times).1 =
      keptIndices read diff dupTh (List.range times.length) ∧
    (finalizeOutputs read diff dupTh ok times).2 =
      ((finalizeOutputs read diff dupTh ok times).1).filterMap times.get? := by
  have hpaths : extract_frames_at_times ok times = List.range times.length :=
    extract_all_ok ok times hok
  have hlt : ∀ j ∈ keptIndices read diff dupTh (List.range times.length), j < times.length := by
    intro j hj
    have hmem : j ∈ List.range (List.range times.length).length :=
      (keptIndices_sublist_range read diff dupTh _).subset hj
    simpa using hmem
  have h1 : (finalizeOutputs read diff dupTh ok times).1 =
      keptIndices read diff dupTh (List.range times.length) := by
    rw [finalizeOutputs]
    simp only [hpaths]
    exact filterMap_get_range_of_lt _ _ hlt
  refine ⟨h1, ?_⟩
  rw [h1, finalizeOutputs]
  simp only [hpaths]

/-- Witness for finalize_pairing: extraction always succeeds on two
candidates. -/
theorem finalize_pairing_witness :
    (∀ p ∈ ([1, 2] : List ℚ).enum, (fun _ : ℕ => fun _ : ℚ => true) p.1 p.2 = true) ∧
    ((finalizeOutputs (fun j : ℕ => some ((j : ℚ))) ratDist 0 (fun _ _ => true) [1, 2]).1 =
       keptIndices (fun j : ℕ => some ((j : ℚ))) ratDist 0 (List.range ([1, 2] : List ℚ).length) ∧
     (finalizeOutputs (fun j : ℕ => some ((j : ℚ))) ratDist 0 (fun _ _ => true) [1, 2]).2 =
       ((finalizeOutputs (fun j : ℕ => some ((j : ℚ))) ratDist 0 (fun _ _ => true) [1, 2]).1).filterMap
         ([1, 2] : List ℚ).get?) :=
  ⟨fun p _ => rfl,
   finalize_pairing (fun j : ℕ => some ((j : ℚ))) ratDist 0 (fun _ _ => true) [1, 2]
     (fun p _ => rfl)⟩

/-- Every element emitted by the fill loop has the form t plus a natural
multiple of the fill interval and lies strictly below the segment end. -/
theorem mem_fillLoop (fill b : ℚ) :
    ∀ (t x : ℚ), x ∈ fillLoop fill b t → ∃ k : ℕ, x = t + (k : ℚ) * fill ∧ x < b := by
  intro t
  induction t using fillLoop.induct fill b with
  | case1 t h ih =>
    intro x hx
    rw [fillLoop.eq_def, if_pos h] at hx
    rcases List.mem_cons.mp hx with rfl | hx2
    · exact ⟨0, by simp, h.2⟩
    · rcases ih x hx2 with ⟨k, hk, hb⟩
      refine ⟨k + 1, ?_, hb⟩
      rw [hk]
      push_cast
      ring
  | case2 t h =>
    intro x hx
    rw [fillLoop.eq_def, if_neg h] at hx
    simp at hx

/-- Conversely, when the fill interval is positive every such point below
the segment end is emitted by the fill loop. -/
theorem fillLoop_mem_of (fill b : ℚ) (hf : 0 < fill) :
    ∀ (k : ℕ) (t : ℚ), t + (k : ℚ) * fill < b → t + (k : ℚ) * fill ∈ fillLoop fill b t := by
  intro k
  induction k with
  | zero =>
    intro t h
    rw [fillLoop.eq_def, if_pos ⟨hf, by simpa using h⟩]
    simp
  | succ k ih =>
    intro t h
    have hk0 : (0 : ℚ) ≤ (k : ℚ) * fill := mul_nonneg (Nat.cast_nonneg k) hf.le
    have h2 : (t + fill) + (k : ℚ) * fill < b := by push_cast at h; linarith
    have hxb : t < b := by push_cast at h; linarith
    rw [fillLoop.eq_def, if_pos ⟨hf, hxb⟩]
    refine List.mem_cons.mpr (Or.inr ?_)
    have heq : t + ((k + 1 : ℕ) : ℚ) * fill = (t + fill) + (k : ℚ) * fill := by
      push_cast
      ring
    rw [heq]
    exact ih (t + fill) h2

/-- Every fill point lies in the half-open segment starting at the loop
start. -/
theorem fillLoop_bounds (fill b t x : ℚ) (hf : 0 < fill) (hx : x ∈ fillLoop fill b t) :
    t ≤ x ∧ x < b := by
  rcases mem_fillLoop fill b t x hx with ⟨k, rfl, hb⟩
  exact ⟨le_add_of_nonneg_right (mul_nonneg (Nat.cast_nonneg k) hf.le), hb⟩

/-- The fill loop emits a strictly increasing list. -/
theorem fillLoop_sorted (fill b : ℚ) (hf : 0 < fill) :
    ∀ t, List.Sorted (· < ·) (fillLoop fill b t) := by
  intro t
  induction t using fillLoop.induct fill b with
  | case1 t h ih =>
    rw [fillLoop.eq_def, if_pos h]
    refine List.sorted_cons.mpr ⟨?_, ih⟩
    intro x hx
    have := (fillLoop_bounds fill b (t + fill) x hf hx).1
    linarith
  | case2 t h =>
    rw [fillLoop.eq_def, if_neg h]
    simp

/-- The segment walk equals a flat map over the adjacent pairs of the
candidate list. -/
theorem fillPass_eq_flatMap (maxGap fill : ℚ) :
    ∀ ts : List ℚ, fillPass maxGap fill ts =
      (ts.zip ts.tail).flatMap
        (fun p => if maxGap < p.2 - p.1 then fillLoop fill p.2 (p.1 + fill) else []) := by
  intro ts
  induction ts with
  | nil => simp [fillPass]
  | cons a ts ih =>
    cases ts with
    | nil => simp [fillPass]
    | cons b rest =>
      rw [fillPass, ih]
      simp [List.zip_cons_cons]

/-- Both components of an adjacent pair are members of the list. -/
theorem zip_tail_mem : ∀ (l : List ℚ) (p : ℚ × ℚ), p ∈ l.zip l.tail → p.1 ∈ l ∧ p.2 ∈ l := by
  intro l
  induction l with
  | nil => simp
  | cons a t ih =>
    intro p hp
    cases t with
    | nil => simp at hp
    | cons b rest =>
      rw [List.tail_cons, List.zip_cons_cons] at hp
      rcases List.mem_cons.mp hp with rfl | hp2
      · exact ⟨by simp, by simp⟩
      · have hmem := ih p (by simpa using hp2)
        exact ⟨List.mem_cons.mpr (Or.inr hmem.1), List.mem_cons.mpr (Or.inr hmem.2)⟩

/-- In a strictly increasing list, every member lies outside the open
interval spanned by any adjacent pair. -/
theorem zip_tail_separates : ∀ (l : List ℚ), List.Pairwise (· < ·) l →
    ∀ p ∈ l.zip l.tail, ∀ y ∈ l, y ≤ p.1 ∨ p.2 ≤ y := by
  intro l
  induction l with
  | nil => simp
  | cons a t ih =>
    intro hs p hp y hy
    cases t with
    | nil => simp at hp
    | cons b rest =>
      rw [List.tail_cons, List.zip_cons_cons] at hp
      rcases List.mem_cons.mp hp with rfl | hp2
      · rcases List.mem_cons.mp hy with rfl | hy2
        · exact Or.inl (le_refl _)
        · rcases List.mem_cons.mp hy2 with rfl | hy3
          · exact Or.inr (le_refl _)
          · exact Or.inr
              (le_of_lt ((List.pairwise_cons.mp (List.pairwise_cons.mp hs).2).1 y hy3))
      · rcases List.mem_cons.mp hy with rfl | hy2
        · have hmem := (zip_tail_mem (b :: rest) p (by simpa using hp2)).1
          exact Or.inl (le_of_lt ((List.pairwise_cons.mp hs).1 p.1 hmem))
        · exact ih (List.pairwise_cons.mp hs).2 p (by simpa using hp2) y hy2

/-- A fill point of the segment walk lies strictly between the two
components of its adjacent pair. -/
theorem mem_fillPass_iff (maxGap fill : ℚ) (hf : 0 < fill) (ts : List ℚ) (x : ℚ) :
    x ∈ fillPass maxGap fill ts ↔
      ∃ p ∈ ts.zip ts.tail, maxGap < p.2 - p.1 ∧
        ∃ k : ℕ, x = p.1 + ((k : ℚ) + 1) * fill ∧ x < p.2 := by
  rw [fillPass_eq_flatMap, List.mem_flatMap]
  constructor
  · rintro ⟨p, hp, hx⟩
    by_cases hgap : maxGap < p.2 - p.1
    · rw [if_pos hgap] at hx
      rcases mem_fillLoop fill p.2 (p.1 + fill) x hx with ⟨k, hk, hb⟩
      exact ⟨p, hp, hgap, k, by rw [hk]; ring, hb⟩
    · rw [if_neg hgap] at hx
      simp at hx
  · rintro ⟨p, hp, hgap, k, rfl, hb⟩
    refine ⟨p, hp, ?_⟩
    rw [if_pos hgap]
    have heq : p.1 + ((k : ℚ) + 1) * fill = (p.1 + fill) + (k : ℚ) * fill := by ring
    rw [heq]
    exact fillLoop_mem_of fill p.2 hf k (p.1 + fill) (by rw [← heq]; exact hb)

/-- The segment walk over a strictly increasing candidate list produces no
duplicate fill points. -/
theorem fillPass_nodup (maxGap fill : ℚ) (hf : 0 < fill) :
    ∀ ts : List ℚ, List.Pairwise (· < ·) ts → (fillPass maxGap fill ts).Nodup := by
  intro ts
  induction ts with
  | nil => intro _; simp [fillPass]
  | cons a ts ih =>
    intro hs
    cases ts with
    | nil => simp [fillPass]
    | cons b rest =>
      rw [fillPass]
      have hbr : List.Pairwise (· < ·) (b :: rest) := (List.pairwise_cons.mp hs).2
      have hrest : (fillPass maxGap fill (b :: rest)).Nodup := ih hbr
      have hsep : ∀ x ∈ fillPass maxGap fill (b :: rest), b < x := by
        intro x hx
        rcases (mem_fillPass_iff maxGap fill hf _ x).mp hx with ⟨p, hp, _, k, hk, _⟩
        have hp1 : p.1 ∈ b :: rest := (zip_tail_mem _ p hp).1
        have hble : b ≤ p.1 := by
          rcases List.mem_cons.mp hp1 with h1 | h1
          · exact le_of_eq h1.symm
          · exact le_of_lt ((List.pairwise_cons.mp hbr).1 p.1 h1)
        have hkpos : (0 : ℚ) < ((k : ℚ) + 1) * fill := by positivity
        have : p.1 < x := by rw [hk]; linarith
        linarith
      by_cases hgap : maxGap < b - a
      · rw [if_pos hgap]
        refine List.Nodup.append
          ((fillLoop_sorted fill b hf (a + fill)).imp fun h => ne_of_lt h) hrest ?_
        intro x hxseg hxrest
        have hxb : x < b := (fillLoop_bounds fill b (a + fill) x hf hxseg).2
        exact absurd (hsep x hxrest) (not_lt.mpr hxb.le)
      · rw [if_neg hgap]
        simpa using hrest

/-- No fill point coincides with an original candidate of a strictly
increasing list. -/
theorem fillPass_disjoint_times (maxGap fill : ℚ) (hf : 0 < fill) (ts : List ℚ)
    (hs : List.Pairwise (· < ·) ts) (y : ℚ) (hy : y ∈ ts)
    (hyf : y ∈ fillPass maxGap fill ts) : False := by
  rcases (mem_fillPass_iff maxGap fill hf ts y).mp hyf with ⟨p, hp, _, k, hk, hb⟩
  have hkpos : (0 : ℚ) < ((k : ℚ) + 1) * fill := by positivity
  have h1 : p.1 < y := by rw [hk]; linarith
  rcases zip_tail_separates ts hs p hp y hy with h | h
  · linarith
  · linarith

/-- C5: on a strictly increasing candidate sequence with positive max gap
and fill interval, the Gap Filler's output contains exactly the original
candidates plus, for each adjacent pair (a, b) with b - a > max_gap, the
points a + k * fill (k = 1, 2, ...) strictly below b — never a point at or
beyond b — and the merged output is strictly increasing. -/
theorem fillGaps_spec (maxGap fill : ℚ) (times : List ℚ) (hm : 0 < maxGap)
    (hf : 0 < fill) (hs : List.Pairwise (· < ·) times) :
    (∀ x, x ∈ fillGaps maxGap fill times ↔
      x ∈ times ∨ ∃ p ∈ times.zip times.tail, maxGap < p.2 - p.1 ∧
        ∃ k : ℕ, x = p.1 + ((k : ℚ) + 1) * fill ∧ x < p.2) ∧
    List.Pairwise (· < ·) (fillGaps maxGap fill times) := by
  rw [fillGaps]
  by_cases hlen : 2 ≤ times.length
  · rw [if_pos ⟨hm, hf, hlen⟩]
    by_cases hfills : fillPass maxGap fill times = []
    · rw [if_pos hfills]
      refine ⟨fun x => ⟨Or.inl, ?_⟩, hs⟩
      rintro (hx | hx2)
      · exact hx
      · have : x ∈ fillPass maxGap fill times :=
          (mem_fillPass_iff maxGap fill hf times x).mpr hx2
        rw [hfills] at this
        simp at this
    · rw [if_neg hfills]
      have hperm := List.perm_insertionSort (· ≤ ·) (times ++ fillPass maxGap fill times)
      constructor
      · intro x
        rw [hperm.mem_iff, List.mem_append, mem_fillPass_iff maxGap fill hf times x]
      · have hnd : (times ++ fillPass maxGap fill times).Nodup := by
          refine List.nodup_append.mpr ⟨hs.imp fun h => ne_of_lt h,
            fillPass_nodup maxGap fill hf times hs, ?_⟩
          intro y hy hyf
          exact fillPass_disjoint_times maxGap fill hf times hs y hy hyf
        have hndsort : (List.insertionSort (· ≤ ·)
            (times ++ fillPass maxGap fill times)).Nodup := hperm.nodup_iff.mpr hnd
        exact (List.sorted_insertionSort (· ≤ ·) _).lt_of_le hndsort
  · rw [if_neg fun h => hlen h.2.2]
    have hzip : times.zip times.tail = [] := by
      rcases times with _ | ⟨a, _ | ⟨b, rest⟩⟩
      · rfl
      · rfl
      · exact absurd (by simp [List.length_cons]) hlen
    refine ⟨fun x => ⟨Or.inl, ?_⟩, hs⟩
    rintro (hx | ⟨p, hp, _⟩)
    · exact hx
    · rw [hzip] at hp
      simp at hp

/-- Witness for fillGaps_spec at the scenario candidates
[1, 7/2, 45/2, 41] with max gap 10 and fill interval 5. -/
theorem fillGaps_spec_witness :
    (0 : ℚ) < 10 ∧ (0 : ℚ) < 5 ∧
    List.Pairwise (· < ·) ([1, 7/2, 45/2, 41] : List ℚ) ∧
    ((∀ x, x ∈ fillGaps 10 5 [1, 7/2, 45/2, 41] ↔
        x ∈ ([1, 7/2, 45/2, 41] : List ℚ) ∨
          ∃ p ∈ (([1, 7/2, 45/2, 41] : List ℚ)).zip (([1, 7/2, 45/2, 41] : List ℚ)).tail,
            (10 : ℚ) < p.2 - p.1 ∧ ∃ k : ℕ, x = p.1 + ((k : ℚ) + 1) * 5 ∧ x < p.2) ∧
      List.Pairwise (· < ·) (fillGaps 10 5 [1, 7/2, 45/2, 41])) :=
  ⟨by norm_num, by norm_num, by norm_num,
   fillGaps_spec 10 5 [1, 7/2, 45/2, 41] (by norm_num) (by norm_num) (by norm_num)⟩
